import Mathlib

/-!
Verification development for the datatree repository.

The repository ships a Conan recipe (conanfile.py) for a header-only C++
library.  The first part of this file is a shallow embedding of that recipe:
each recipe method becomes a pure Lean function describing the calls the
method performs, and the class attributes become plain definitions.

The library core itself (the Node/Path/document engine and the JSON
serialization bridge) is not part of the shipped sources; it is modelled
from the specification in the second part of this file.
-/

namespace DataTree

/-! ## Part 1: shallow embedding of src/conanfile.py -/

/-- One regular dependency declaration made through self.requires(...):
the package reference string and the transitive_headers flag. -/
structure ConanRequire where
  ref : String
  transitiveHeaders : Bool
deriving DecidableEq

/-- Accumulated dependency declarations of a recipe: the regular
requires and the test-only requires, in declaration order. -/
structure ConanState where
  requiresList : List ConanRequire
  testRequiresList : List String
deriving DecidableEq

/-- Embedding of self.requires(ref, transitive_headers=th): appends one
regular requirement. -/
def ConanState.requires (s : ConanState) (ref : String) (th : Bool) : ConanState :=
  { s with requiresList := s.requiresList ++ [{ ref := ref, transitiveHeaders := th }] }

/-- Embedding of self.test_requires(ref): appends one test-only requirement. -/
def ConanState.test_requires (s : ConanState) (ref : String) : ConanState :=
  { s with testRequiresList := s.testRequiresList ++ [ref] }

/-- One call to conan.tools.files.copy: a glob pattern, a source folder and a
destination folder. -/
structure CopyCall where
  pattern : String
  src : String
  dst : String
deriving DecidableEq

/-- One self.run(cmd, env=...) invocation. -/
structure RunCall where
  cmd : String
  env : String
deriving DecidableEq

/-- The consumable target information set by package_info. -/
structure CppInfo where
  libs : List String
deriving DecidableEq

/-- Embedding of os.path.join for relative POSIX components. -/
def osPathJoin : List String → String
  | [] => ""
  | [p] => p
  | p :: rest => p ++ "/" ++ osPathJoin rest

namespace DataTreeConan

/-- Attribute name = 'datatree' of the recipe class. -/
def name : String := "datatree"

/-- Attribute version = '0.0.2' of the recipe class. -/
def version : String := "0.0.2"

/-- Attribute license = 'MIT' of the recipe class. -/
def license : String := "MIT"

/-- Attribute package_type = 'header-library' of the recipe class. -/
def package_type : String := "header-library"

/-- Embedding of DataTreeConan.requirements: the sequence of requires and
test_requires calls the method performs, starting from no declarations. -/
def requirements : ConanState :=
  (((ConanState.mk [] []).requires "expected-lite/0.6.3" true).requires
      "nlohmann_json/3.11.3" true).test_requires "catch2/3.5.2"

/-- Embedding of DataTreeConan.export_sources: the list of copy calls the
method performs, given the recipe folder and the export sources folder. -/
def export_sources (recipe_folder esf : String) : List CopyCall :=
  [ { pattern := "LICENSE.md", src := recipe_folder, dst := esf },
    { pattern := "CMakeLists.txt", src := recipe_folder, dst := esf },
    { pattern := "cmake/*", src := recipe_folder, dst := esf },
    { pattern := "include/*", src := recipe_folder, dst := esf },
    { pattern := "source/*", src := recipe_folder, dst := esf },
    { pattern := "test/*", src := recipe_folder, dst := esf } ]

/-- Embedding of DataTreeConan.test: the list of commands run, given the
value of can_run(self) and the build bin directory self.cpp.build.bindir. -/
def test (can_run : Bool) (bindir : String) : List RunCall :=
  if can_run then
    [ { cmd := osPathJoin [bindir, "test", "unit_tests"], env := "conanrun" } ]
  else []

/-- Embedding of DataTreeConan.package_info: sets cpp_info.libs to the
single-element list with the literal 'datatree'. -/
def package_info : CppInfo := { libs := ["datatree"] }

end DataTreeConan

/-! ## Part 2: the datatree core, modelled from the spec -/

/-- Modelled from the spec: the Node variant value type of the tree core
(absent from the shipped sources).  A tagged union over exactly the kinds
Null, Boolean, Integer, Float, String, Array and Object; the Float payload
(a 64-bit floating-point number in the spec) is abstracted as an exact
rational, IEEE rounding is not modelled; an Object payload is the
insertion-ordered list of key/value fields. -/
inductive Node where
  | null : Node
  | boolean : Bool → Node
  | integer : Int → Node
  | float : Rat → Node
  | string : String → Node
  | array : List Node → Node
  | object : List (String × Node) → Node

/-- Modelled from the spec: a Path segment is either a string key addressing
an Object or a non-negative index addressing an Array (non-negativity is
enforced at construction by using Nat). -/
inductive Segment where
  | key : String → Segment
  | index : Nat → Segment
deriving DecidableEq

/-- Modelled from the spec: the closed error taxonomy of the core.  The Path
and segment-index payload each error carries in the spec is elided; only the
kind is modelled, which is what the claims are about. -/
inductive TreeError where
  | typeMismatch : TreeError
  | keyNotFound : TreeError
  | indexOutOfBounds : TreeError
  | malformedPath : TreeError
  | parseError : TreeError
deriving DecidableEq

/-- Lookup of an Object key: the first field with the given key. -/
def lookupKey : List (String × Node) → String → Option Node
  | [], _ => none
  | (k, v) :: rest, key => if k = key then some v else lookupKey rest key

/-- Replace the value of every field with the given key (a single field
under the unique-keys invariant of the spec). -/
def updateKey : List (String × Node) → String → Node → List (String × Node)
  | [], _, _ => []
  | (k, v) :: rest, key, w =>
    if k = key then (k, w) :: updateKey rest key w
    else (k, v) :: updateKey rest key w

/-- Remove every field with the given key (a single field under the
unique-keys invariant of the spec). -/
def removeKey : List (String × Node) → String → List (String × Node)
  | [], _ => []
  | (k, v) :: rest, key =>
    if k = key then removeKey rest key else (k, v) :: removeKey rest key

/-- Does the Object field list contain the given key. -/
def containsKey (fs : List (String × Node)) (k : String) : Bool :=
  (lookupKey fs k).isSome

/-- Modelled from the spec: get resolves a Path segment-by-segment from the
root.  An absent Object key fails with keyNotFound, an out-of-range Array
index with indexOutOfBounds, a segment whose kind is incompatible with the
current Node's kind with typeMismatch; the empty Path returns the root. -/
def getNode : Node → List Segment → Except TreeError Node
  | n, [] => .ok n
  | Node.object fs, Segment.key k :: rest =>
    match lookupKey fs k with
    | some child => getNode child rest
    | none => .error .keyNotFound
  | Node.array xs, Segment.index i :: rest =>
    if h : i < xs.length then getNode xs[i] rest
    else .error .indexOutOfBounds
  | Node.object _, Segment.index _ :: _ => .error .typeMismatch
  | Node.array _, Segment.key _ :: _ => .error .typeMismatch
  | _, _ :: _ => .error .typeMismatch

/-- Modelled from the spec: contains resolves like get but returns a boolean
rather than failing. -/
def containsNode (root : Node) (p : List Segment) : Bool :=
  match getNode root p with
  | .ok _ => true
  | .error _ => false

/-- Is the Node a scalar (anything that is neither an Array nor an Object). -/
def isScalarNode : Node → Bool
  | Node.array _ => false
  | Node.object _ => false
  | _ => true

/-- Modelled from the spec: the fresh intermediate container vivification
creates before resolving the given remaining segments: an empty Object when
the next segment is a key, an empty Array when it is an index. -/
def freshFor : List Segment → Node
  | [] => Node.null
  | Segment.key _ :: _ => Node.object []
  | Segment.index _ :: _ => Node.array []

/-- Modelled from the spec: set resolves like get and replaces exactly the
terminal Node with the value.  In strict mode (viv = false) the whole path
must already exist, with get's failure behavior.  In vivifying mode
(viv = true) missing intermediate containers are created on demand: an
absent Object key is inserted, a Null is grown into the container the
segment requires (the default-constructed empty Document has a Null root and
must be vivifiable), and an out-of-range Array index extends the Array with
Null padding so that the empty intermediate Arrays the spec creates on
demand can be populated; a non-Null scalar where a container is required
still fails with typeMismatch (vivification never overwrites an existing
incompatible value). -/
def setNode (viv : Bool) : Node → List Segment → Node → Except TreeError Node
  | _, [], v => .ok v
  | Node.object fs, Segment.key k :: rest, v =>
    match lookupKey fs k with
    | some child =>
      match setNode viv child rest v with
      | .ok c => .ok (Node.object (updateKey fs k c))
      | .error e => .error e
    | none =>
      if viv then
        match setNode viv (freshFor rest) rest v with
        | .ok c => .ok (Node.object (fs ++ [(k, c)]))
        | .error e => .error e
      else .error .keyNotFound
  | Node.array xs, Segment.index i :: rest, v =>
    if h : i < xs.length then
      match setNode viv xs[i] rest v with
      | .ok c => .ok (Node.array (xs.set i c))
      | .error e => .error e
    else if viv then
      match setNode viv (freshFor rest) rest v with
      | .ok c => .ok (Node.array (xs ++ List.replicate (i - xs.length) Node.null ++ [c]))
      | .error e => .error e
    else .error .indexOutOfBounds
  | Node.null, Segment.key k :: rest, v =>
    if viv then
      match setNode viv (freshFor rest) rest v with
      | .ok c => .ok (Node.object [(k, c)])
      | .error e => .error e
    else .error .typeMismatch
  | Node.null, Segment.index i :: rest, v =>
    if viv then
      match setNode viv (freshFor rest) rest v with
      | .ok c => .ok (Node.array (List.replicate i Node.null ++ [c]))
      | .error e => .error e
    else .error .typeMismatch
  | Node.object _, Segment.index _ :: _, _ => .error .typeMismatch
  | Node.array _, Segment.key _ :: _, _ => .error .typeMismatch
  | _, _ :: _, _ => .error .typeMismatch

/-- Modelled from the spec: erase resolves to the parent of the terminal
segment with get's rules, then removes the terminal key from an Object or
the terminal index from an Array (index removal shifts subsequent elements
down).  Erasing an absent key or index fails with keyNotFound or
indexOutOfBounds; erasing at the empty Path resets the root to Null. -/
def eraseNode : Node → List Segment → Except TreeError Node
  | _, [] => .ok Node.null
  | Node.object fs, [Segment.key k] =>
    if containsKey fs k then .ok (Node.object (removeKey fs k))
    else .error .keyNotFound
  | Node.array xs, [Segment.index i] =>
    if i < xs.length then .ok (Node.array (xs.eraseIdx i))
    else .error .indexOutOfBounds
  | Node.object fs, Segment.key k :: rest =>
    match lookupKey fs k with
    | some child =>
      match eraseNode child rest with
      | .ok c => .ok (Node.object (updateKey fs k c))
      | .error e => .error e
    | none => .error .keyNotFound
  | Node.array xs, Segment.index i :: rest =>
    if h : i < xs.length then
      match eraseNode xs[i] rest with
      | .ok c => .ok (Node.array (xs.set i c))
      | .error e => .error e
    else .error .indexOutOfBounds
  | Node.object _, Segment.index _ :: _ => .error .typeMismatch
  | Node.array _, Segment.key _ :: _ => .error .typeMismatch
  | _, _ :: _ => .error .typeMismatch

mutual

/-- Modelled from the spec: structural Node equality — same kind and equal
payloads, deep, order-sensitive for Array, key-set-and-value equal but
insertion-order-insensitive for Object. -/
def nodeEq : Node → Node → Bool
  | Node.null, Node.null => true
  | Node.boolean a, Node.boolean b => a == b
  | Node.integer a, Node.integer b => a == b
  | Node.float a, Node.float b => a == b
  | Node.string a, Node.string b => a == b
  | Node.array xs, Node.array ys => arrEq xs ys
  | Node.object xs, Node.object ys => fieldsSub xs ys && fieldsSub ys xs
  | _, _ => false
termination_by a b => sizeOf a + sizeOf b

/-- Order-sensitive elementwise equality of Array payloads. -/
def arrEq : List Node → List Node → Bool
  | [], [] => true
  | x :: xs, y :: ys => nodeEq x y && arrEq xs ys
  | _, _ => false
termination_by xs ys => sizeOf xs + sizeOf ys

/-- Does the field list contain an entry whose key is k and whose value is
structurally equal to v. -/
def lookupEq (k : String) (v : Node) : List (String × Node) → Bool
  | [] => false
  | (k2, w) :: ys => if k = k2 ∧ nodeEq v w = true then true else lookupEq k v ys
termination_by ys => sizeOf v + sizeOf ys

/-- Is every field of the first list matched, key and value, in the second. -/
def fieldsSub : List (String × Node) → List (String × Node) → Bool
  | [], _ => true
  | (k, v) :: xs, ys => lookupEq k v ys && fieldsSub xs ys
termination_by xs ys => sizeOf xs + sizeOf ys

end

mutual

/-- Does the tree contain no Float node (the round-trip law is stated for
such trees, matching the spec's documented float precision loss). -/
def noFloat : Node → Bool
  | Node.float _ => false
  | Node.array xs => noFloatL xs
  | Node.object fs => noFloatF fs
  | _ => true
termination_by n => sizeOf n

/-- noFloat on every element of an Array payload. -/
def noFloatL : List Node → Bool
  | [] => true
  | x :: xs => noFloat x && noFloatL xs
termination_by xs => sizeOf xs

/-- noFloat on every value of an Object payload. -/
def noFloatF : List (String × Node) → Bool
  | [] => true
  | (_, v) :: fs => noFloat v && noFloatF fs
termination_by fs => sizeOf fs

end

/-! ### Serialization bridge, modelled from the spec

The external JSON library is instantiated by a concrete JSON printer and
recursive-descent parser over character lists; the 1:1 mapping between the
external primitive value model and Node is then the identity.  The printing
is compact (the pretty option is fixed to false) and the float formatting
precision option is fixed to 6 digits. -/

/-- The character of a decimal digit value. -/
def digitChar : Nat → Char
  | 0 => '0'
  | 1 => '1'
  | 2 => '2'
  | 3 => '3'
  | 4 => '4'
  | 5 => '5'
  | 6 => '6'
  | 7 => '7'
  | 8 => '8'
  | _ => '9'

/-- The decimal digit value of a character. -/
def digitVal (c : Char) : Nat := c.toNat - 48

/-- Is the character a decimal digit. -/
def isDigitChar (c : Char) : Bool := decide (48 ≤ c.toNat ∧ c.toNat ≤ 57)

/-- Decimal digit characters accumulated most significant first; the fuel
bounds the number of digits and is immaterial whenever it exceeds n. -/
def natCharsAux : Nat → Nat → List Char → List Char
  | 0, _, acc => acc
  | fuel + 1, n, acc =>
    if n < 10 then digitChar n :: acc
    else natCharsAux fuel (n / 10) (digitChar (n % 10) :: acc)

/-- Decimal digit characters of a natural number, most significant first. -/
def natToChars (n : Nat) : List Char := natCharsAux (n + 1) n []

/-- Decimal digit characters of an integer with a leading minus sign when
negative. -/
def intToChars (i : Int) : List Char :=
  if i < 0 then '-' :: natToChars i.natAbs else natToChars i.toNat

/-- The given number of decimal fraction digits of num / den. -/
def fracChars (num den : Nat) : Nat → List Char
  | 0 => []
  | p + 1 => digitChar (num * 10 / den) :: fracChars (num * 10 % den) den p

/-- Decimal rendering of a Float payload, 6 fraction digits (the spec's
float formatting precision option, fixed). -/
def floatChars (q : Rat) : List Char :=
  (if q < 0 then ['-'] else []) ++
    natToChars (q.num.natAbs / q.den) ++
    '.' :: fracChars (q.num.natAbs % q.den) q.den 6

/-- JSON string-content escaping per JSON lexical rules (quote, backslash
and the common control characters; other characters are emitted as is). -/
def escChars : List Char → List Char
  | [] => []
  | c :: cs =>
    (if c = '"' then ['\\', '"']
     else if c = '\\' then ['\\', '\\']
     else if c = '\n' then ['\\', 'n']
     else if c = '\t' then ['\\', 't']
     else if c = '\r' then ['\\', 'r']
     else [c]) ++ escChars cs

/-- A JSON string literal: quote, escaped content, quote. -/
def stringChars (s : String) : List Char :=
  '"' :: escChars s.data ++ ['"']

mutual

/-- Modelled from the spec: toText's depth-first compact JSON printing of a
tree: Object fields in insertion order, Array elements in index order,
scalars per JSON lexical rules. -/
def printNode : Node → List Char
  | Node.null => ['n', 'u', 'l', 'l']
  | Node.boolean true => ['t', 'r', 'u', 'e']
  | Node.boolean false => ['f', 'a', 'l', 's', 'e']
  | Node.integer i => intToChars i
  | Node.float q => floatChars q
  | Node.string s => stringChars s
  | Node.array [] => ['[', ']']
  | Node.array (x :: xs) => '[' :: (printNode x ++ printItems xs ++ [']'])
  | Node.object [] => ['{', '}']
  | Node.object (f :: fs) => '{' :: (printField f ++ printFieldsRest fs ++ ['}'])
termination_by n => sizeOf n

/-- Remaining Array elements, each preceded by a comma. -/
def printItems : List Node → List Char
  | [] => []
  | x :: xs => ',' :: (printNode x ++ printItems xs)
termination_by xs => sizeOf xs

/-- One Object field: key string literal, colon, value. -/
def printField : String × Node → List Char
  | (k, v) => stringChars k ++ ':' :: printNode v
termination_by f => sizeOf f

/-- Remaining Object fields, each preceded by a comma. -/
def printFieldsRest : List (String × Node) → List Char
  | [] => []
  | f :: fs => ',' :: (printField f ++ printFieldsRest fs)
termination_by fs => sizeOf fs

end

/-- The maximal leading run of decimal digits and the remainder. -/
def takeDigits : List Char → List Char × List Char
  | [] => ([], [])
  | c :: cs =>
    if isDigitChar c then
      let p := takeDigits cs
      (c :: p.1, p.2)
    else ([], c :: cs)

/-- The natural-number value of big-endian decimal digit characters. -/
def digitsVal (ds : List Char) : Nat :=
  Nat.ofDigits 10 (ds.map digitVal).reverse

/-- Parses a JSON string body after the opening quote, unescaping, up to
the closing quote; returns the content and the remainder. -/
def parseStringBody : List Char → Except TreeError (List Char × List Char)
  | [] => .error .parseError
  | '"' :: cs => .ok ([], cs)
  | '\\' :: '"' :: cs =>
    match parseStringBody cs with
    | .ok (s, r) => .ok ('"' :: s, r)
    | .error err => .error err
  | '\\' :: '\\' :: cs =>
    match parseStringBody cs with
    | .ok (s, r) => .ok ('\\' :: s, r)
    | .error err => .error err
  | '\\' :: 'n' :: cs =>
    match parseStringBody cs with
    | .ok (s, r) => .ok ('\n' :: s, r)
    | .error err => .error err
  | '\\' :: 't' :: cs =>
    match parseStringBody cs with
    | .ok (s, r) => .ok ('\t' :: s, r)
    | .error err => .error err
  | '\\' :: 'r' :: cs =>
    match parseStringBody cs with
    | .ok (s, r) => .ok ('\r' :: s, r)
    | .error err => .error err
  | '\\' :: _ => .error .parseError
  | c :: cs =>
    match parseStringBody cs with
    | .ok (s, r) => .ok (c :: s, r)
    | .error err => .error err

/-- Parses an unsigned JSON number: a digit run, then an optional fraction;
a fraction yields a Float node, otherwise an Integer node. -/
def parseNumber (cs : List Char) : Except TreeError (Node × List Char) :=
  match takeDigits cs with
  | ([], _) => .error .parseError
  | (d :: ds, r) =>
    match r with
    | [] => .ok (Node.integer (digitsVal (d :: ds)), [])
    | c :: r2 =>
      if c = '.' then
        match takeDigits r2 with
        | ([], _) => .error .parseError
        | (f :: fs, r3) =>
          .ok (Node.float ((digitsVal (d :: ds) : Rat) +
                 (digitsVal (f :: fs) : Rat) / (10 : Rat) ^ (f :: fs).length), r3)
      else .ok (Node.integer (digitsVal (d :: ds)), c :: r2)

mutual

/-- Modelled from the spec: fromText's recursive-descent JSON value parser
(the external black-box parser instantiated concretely); fuel bounds the
recursion depth. -/
def parseVal : Nat → List Char → Except TreeError (Node × List Char)
  | 0, _ => .error .parseError
  | fuel + 1, cs =>
    match cs with
    | [] => .error .parseError
    | c :: rest =>
      if c = 'n' then
        match rest with
        | 'u' :: 'l' :: 'l' :: r => .ok (Node.null, r)
        | _ => .error .parseError
      else if c = 't' then
        match rest with
        | 'r' :: 'u' :: 'e' :: r => .ok (Node.boolean true, r)
        | _ => .error .parseError
      else if c = 'f' then
        match rest with
        | 'a' :: 'l' :: 's' :: 'e' :: r => .ok (Node.boolean false, r)
        | _ => .error .parseError
      else if c = '"' then
        match parseStringBody rest with
        | .ok (s, r) => .ok (Node.string (String.mk s), r)
        | .error e => .error e
      else if c = '[' then
        match rest with
        | [] => .error .parseError
        | c2 :: r2 =>
          if c2 = ']' then .ok (Node.array [], r2)
          else
            match parseItems fuel (c2 :: r2) with
            | .ok (xs, r) => .ok (Node.array xs, r)
            | .error e => .error e
      else if c = '{' then
        match rest with
        | [] => .error .parseError
        | c2 :: r2 =>
          if c2 = '}' then .ok (Node.object [], r2)
          else
            match parseFields fuel (c2 :: r2) with
            | .ok (fs, r) => .ok (Node.object fs, r)
            | .error e => .error e
      else if c = '-' then
        match parseNumber rest with
        | .ok (Node.integer n, r) => .ok (Node.integer (-n), r)
        | .ok (Node.float q, r) => .ok (Node.float (-q), r)
        | .ok _ => .error .parseError
        | .error e => .error e
      else if isDigitChar c then parseNumber (c :: rest)
      else .error .parseError

/-- Parses the comma-separated elements of a non-empty Array up to the
closing bracket. -/
def parseItems : Nat → List Char → Except TreeError (List Node × List Char)
  | 0, _ => .error .parseError
  | fuel + 1, cs =>
    match parseVal fuel cs with
    | .ok (v, r) =>
      match r with
      | [] => .error .parseError
      | c :: r2 =>
        if c = ',' then
          match parseItems fuel r2 with
          | .ok (vs, r3) => .ok (v :: vs, r3)
          | .error e => .error e
        else if c = ']' then .ok ([v], r2)
        else .error .parseError
    | .error e => .error e

/-- Parses the comma-separated fields of a non-empty Object up to the
closing brace. -/
def parseFields : Nat → List Char → Except TreeError (List (String × Node) × List Char)
  | 0, _ => .error .parseError
  | fuel + 1, cs =>
    match cs with
    | '"' :: cs2 =>
      match parseStringBody cs2 with
      | .ok (k, r) =>
        match r with
        | ':' :: r2 =>
          match parseVal fuel r2 with
          | .ok (v, r3) =>
            match r3 with
            | [] => .error .parseError
            | c :: r4 =>
              if c = ',' then
                match parseFields fuel r4 with
                | .ok (fs, r5) => .ok ((String.mk k, v) :: fs, r5)
                | .error e => .error e
              else if c = '}' then .ok ([(String.mk k, v)], r4)
              else .error .parseError
          | .error e => .error e
        | _ => .error .parseError
      | .error e => .error e
    | _ => .error .parseError

end

/-- Modelled from the spec: toText produces the compact JSON text of a
tree by depth-first traversal. -/
def toText (d : Node) : String := String.mk (printNode d)

/-- Modelled from the spec: fromText parses JSON text into a tree,
preserving key order as encountered, failing with parseError on malformed
input (here also when the text has trailing characters). -/
def fromText (s : String) : Except TreeError Node :=
  match parseVal (s.length + 1) s.data with
  | .ok (n, []) => .ok n
  | .ok (_, _ :: _) => .error .parseError
  | .error e => .error e

/-- A remainder a printed value may be followed by so that the parser stops
exactly at the value boundary: empty, or starting with a character that can
extend neither a digit run nor start a fraction. -/
def RestOk : List Char → Prop
  | [] => True
  | c :: _ => isDigitChar c = false ∧ c ≠ '.'

mutual

/-- Fuel measure of a Node for the parser: enough recursion depth to parse
its printed form. -/
def sizeN : Node → Nat
  | Node.array xs => 1 + sizeItems xs
  | Node.object fs => 1 + sizeFields fs
  | _ => 1
termination_by n => sizeOf n

/-- Fuel measure of Array elements. -/
def sizeItems : List Node → Nat
  | [] => 0
  | x :: xs => 1 + sizeN x + sizeItems xs
termination_by xs => sizeOf xs

/-- Fuel measure of Object fields. -/
def sizeFields : List (String × Node) → Nat
  | [] => 0
  | (_, v) :: fs => 1 + sizeN v + sizeFields fs
termination_by fs => sizeOf fs

end

/-! ## Part 3: theorems -/

/-- C1: the recipe's requirements step declares exactly two regular public
dependencies, expected-lite version 0.6.3 and nlohmann_json version 3.11.3,
both with transitive_headers set to true. -/
theorem requirements_regular_deps :
    DataTreeConan.requirements.requiresList =
      [{ ref := "expected-lite/0.6.3", transitiveHeaders := true },
       { ref := "nlohmann_json/3.11.3", transitiveHeaders := true }] := rfl

/-- C2: catch2 version 3.5.2 is declared only through test_requires and
never appears among the regular requires, so it is not part of the public
dependency surface. -/
theorem catch2_only_test_requires :
    DataTreeConan.requirements.testRequiresList = ["catch2/3.5.2"] ∧
    DataTreeConan.requirements.requiresList.all
      (fun r => r.ref != "catch2/3.5.2") = true :=
  ⟨rfl, by decide⟩

/-- C3: the package is named datatree with package_type header-library, and
package_info exposes exactly one consumable target, the single-element libs
list with the name datatree. -/
theorem package_identity :
    DataTreeConan.name = "datatree" ∧
    DataTreeConan.package_type = "header-library" ∧
    DataTreeConan.package_info.libs = ["datatree"] :=
  ⟨rfl, rfl, rfl⟩

/-- C4: when can_run is true the recipe's test step runs exactly one
command, the binary at the path joined from the build bin directory, test
and unit_tests, under the conanrun environment; when can_run is false it
runs nothing. -/
theorem test_step_commands (bindir : String) :
    DataTreeConan.test true bindir =
      [{ cmd := bindir ++ "/test/unit_tests", env := "conanrun" }] ∧
    DataTreeConan.test false bindir = [] := by
  constructor
  · have h : osPathJoin [bindir, "test", "unit_tests"] = bindir ++ "/test/unit_tests" := by
      simp only [osPathJoin]
      rw [String.append_assoc]; rfl
    simp [DataTreeConan.test, h]
  · rfl

/-- C10: the export_sources step copies exactly six patterns, LICENSE.md,
CMakeLists.txt, cmake/*, include/*, source/* and test/*, each from the
recipe folder into the export sources folder. -/
theorem export_sources_copies (recipe_folder esf : String) :
    (DataTreeConan.export_sources recipe_folder esf).map CopyCall.pattern =
      ["LICENSE.md", "CMakeLists.txt", "cmake/*", "include/*", "source/*", "test/*"] ∧
    (DataTreeConan.export_sources recipe_folder esf).map CopyCall.src =
      List.replicate 6 recipe_folder ∧
    (DataTreeConan.export_sources recipe_folder esf).map CopyCall.dst =
      List.replicate 6 esf :=
  ⟨rfl, rfl, rfl⟩

/-- Resolution of a concatenated Path is resolution of the first part
followed by resolution of the second from the intermediate Node, so the
first failing segment short-circuits the whole resolution with its error. -/
theorem getNode_append (p : List Segment) : ∀ (root : Node) (q : List Segment),
    getNode root (p ++ q) = (getNode root p).bind fun n => getNode n q := by
  induction p with
  | nil => intro root q; simp [getNode, Except.bind]
  | cons seg rest ih =>
    intro root q
    cases root <;> cases seg <;>
      simp only [List.cons_append, getNode, Except.bind]
    case object.key fs k =>
      cases h : lookupKey fs k <;> simp [h, Except.bind, ih]
    case array.index xs i =>
      by_cases h : i < xs.length <;> simp [h, Except.bind, ih]

/-- C6: get resolves segment-by-segment; the empty Path returns the root,
an absent Object key fails with keyNotFound, an out-of-range Array index
with indexOutOfBounds, a kind-incompatible segment (index into an Object,
key into an Array, any segment into a scalar) with typeMismatch, and
resolution of a concatenated Path factors through the first part, so the
first failing segment aborts the whole resolution with its specific
error. -/
theorem get_resolution_spec :
    (∀ root : Node, getNode root [] = Except.ok root) ∧
    (∀ fs k rest, lookupKey fs k = none →
      getNode (Node.object fs) (Segment.key k :: rest) = Except.error TreeError.keyNotFound) ∧
    (∀ (xs : List Node) i rest, xs.length ≤ i →
      getNode (Node.array xs) (Segment.index i :: rest) =
        Except.error TreeError.indexOutOfBounds) ∧
    (∀ fs i rest, getNode (Node.object fs) (Segment.index i :: rest) =
      Except.error TreeError.typeMismatch) ∧
    (∀ xs k rest, getNode (Node.array xs) (Segment.key k :: rest) =
      Except.error TreeError.typeMismatch) ∧
    (∀ n seg rest, isScalarNode n = true →
      getNode n (seg :: rest) = Except.error TreeError.typeMismatch) ∧
    (∀ root p q, getNode root (p ++ q) = (getNode root p).bind fun n => getNode n q) := by
  refine ⟨?_, ?_, ?_, fun _ _ _ => rfl, fun _ _ _ => rfl, ?_, fun root p q =>
    getNode_append p root q⟩
  · intro root; cases root <;> rfl
  · intro fs k rest h; simp [getNode, h]
  · intro xs i rest h
    simp only [getNode]
    rw [dif_neg (by omega)]
  · intro n seg rest h
    cases n <;> simp [isScalarNode] at h <;> cases seg <;> rfl

/-- Witness for the hypotheses of get_resolution_spec at concrete inputs. -/
theorem get_resolution_spec_witness :
    getNode (Node.object [("a", Node.integer 1)]) [Segment.key "b"] =
      Except.error TreeError.keyNotFound ∧
    getNode (Node.array [Node.integer 1]) [Segment.index 3] =
      Except.error TreeError.indexOutOfBounds ∧
    getNode (Node.integer 5) [Segment.key "a"] =
      Except.error TreeError.typeMismatch :=
  ⟨get_resolution_spec.2.1 [("a", Node.integer 1)] "b" [] rfl,
   get_resolution_spec.2.2.1 [Node.integer 1] 3 [] (by decide),
   get_resolution_spec.2.2.2.2.2.1 (Node.integer 5) (Segment.key "a") [] rfl⟩

/-- Appending a new key to a field list without it makes lookup find it. -/
theorem lookupKey_append_none (fs : List (String × Node)) (k : String) (c : Node)
    (h : lookupKey fs k = none) : lookupKey (fs ++ [(k, c)]) k = some c := by
  induction fs with
  | nil => simp [lookupKey]
  | cons f rest ih =>
    obtain ⟨k2, v⟩ := f
    simp only [lookupKey, List.cons_append] at h ⊢
    by_cases hk : k2 = k
    · simp [hk] at h
    · simp only [if_neg hk] at h ⊢
      exact ih h

/-- Updating an existing key makes lookup return the new value. -/
theorem lookupKey_update_self (fs : List (String × Node)) (k : String) (w c : Node)
    (h : lookupKey fs k = some w) : lookupKey (updateKey fs k c) k = some c := by
  induction fs with
  | nil => simp [lookupKey] at h
  | cons f rest ih =>
    obtain ⟨k2, v⟩ := f
    simp only [lookupKey, updateKey] at h ⊢
    by_cases hk : k2 = k
    · simp [hk, lookupKey]
    · simp only [if_neg hk, lookupKey] at h ⊢
      exact ih h

/-- Resolving the index right after a list prefix of that length yields the
appended element. -/
theorem get_concat (l : List Node) (c : Node) (i : Nat) (hi : l.length = i)
    (rest : List Segment) :
    getNode (Node.array (l ++ [c])) (Segment.index i :: rest) = getNode c rest := by
  subst hi
  simp only [getNode]
  rw [dif_pos (by simp)]
  congr 1
  simp

/-- Vivifying set from the fresh container for a path always succeeds. -/
theorem setNode_fresh_ok (p : List Segment) :
    ∀ v : Node, ∃ c, setNode true (freshFor p) p v = Except.ok c := by
  induction p with
  | nil => exact fun v => ⟨v, rfl⟩
  | cons seg rest ih =>
    intro v
    obtain ⟨c, hc⟩ := ih v
    cases seg with
    | key k => exact ⟨Node.object [(k, c)], by simp [setNode, lookupKey, hc]⟩
    | index i =>
      exact ⟨Node.array (List.replicate i Node.null ++ [c]), by simp [setNode, hc]⟩

/-- Vivifying set on the Null root always succeeds. -/
theorem setNode_null_ok (p : List Segment) (v : Node) :
    ∃ r, setNode true Node.null p v = Except.ok r := by
  cases p with
  | nil => exact ⟨v, rfl⟩
  | cons seg rest =>
    obtain ⟨c, hc⟩ := setNode_fresh_ok rest v
    cases seg with
    | key k => exact ⟨Node.object [(k, c)], by simp [setNode, hc]⟩
    | index i => exact ⟨Node.array (List.replicate i Node.null ++ [c]), by simp [setNode, hc]⟩

/-- After a successful vivifying set, get at the same path returns the set
value. -/
theorem setNode_get (p : List Segment) : ∀ root v r : Node,
    setNode true root p v = Except.ok r → getNode r p = Except.ok v := by
  induction p with
  | nil =>
    intro root v r h
    simp only [setNode] at h
    injection h with h
    subst h
    cases v <;> rfl
  | cons seg rest ih =>
    intro root v r h
    cases root <;> cases seg
    case boolean.key b k => exact absurd h (by simp [setNode])
    case boolean.index b i => exact absurd h (by simp [setNode])
    case integer.key n k => exact absurd h (by simp [setNode])
    case integer.index n i => exact absurd h (by simp [setNode])
    case float.key q k => exact absurd h (by simp [setNode])
    case float.index q i => exact absurd h (by simp [setNode])
    case string.key s k => exact absurd h (by simp [setNode])
    case string.index s i => exact absurd h (by simp [setNode])
    case array.key xs k => exact absurd h (by simp [setNode])
    case object.index fs i => exact absurd h (by simp [setNode])
    case null.key k =>
      cases hs : setNode true (freshFor rest) rest v with
      | ok c =>
        simp only [setNode, hs] at h
        injection h with h
        subst h
        simp only [getNode, lookupKey, if_pos rfl]
        exact ih _ _ _ hs
      | error e => simp [setNode, hs] at h
    case null.index i =>
      cases hs : setNode true (freshFor rest) rest v with
      | ok c =>
        simp only [setNode, hs] at h
        injection h with h
        subst h
        rw [get_concat (List.replicate i Node.null) c i (by simp)]
        exact ih _ _ _ hs
      | error e => simp [setNode, hs] at h
    case object.key fs k =>
      cases hl : lookupKey fs k with
      | some child =>
        cases hs : setNode true child rest v with
        | ok c =>
          simp only [setNode, hl, hs] at h
          injection h with h
          subst h
          simp only [getNode, lookupKey_update_self fs k child c hl]
          exact ih _ _ _ hs
        | error e => simp [setNode, hl, hs] at h
      | none =>
        cases hs : setNode true (freshFor rest) rest v with
        | ok c =>
          simp only [setNode, hl, hs] at h
          injection h with h
          subst h
          simp only [getNode, lookupKey_append_none fs k c hl]
          exact ih _ _ _ hs
        | error e => simp [setNode, hl, hs] at h
    case array.index xs i =>
      by_cases hlt : i < xs.length
      · cases hs : setNode true xs[i] rest v with
        | ok c =>
          simp only [setNode, dif_pos hlt, hs] at h
          injection h with h
          subst h
          simp only [getNode]
          rw [dif_pos (by simpa)]
          simp only [List.getElem_set_self]
          exact ih _ _ _ hs
        | error e => simp [setNode, dif_pos hlt, hs] at h
      · cases hs : setNode true (freshFor rest) rest v with
        | ok c =>
          simp only [setNode, dif_neg hlt, hs] at h
          injection h with h
          subst h
          rw [get_concat (xs ++ List.replicate (i - xs.length) Node.null) c i
            (by simp; omega)]
          exact ih _ _ _ hs
        | error e => simp [setNode, dif_neg hlt, hs] at h

/-- C7: a vivifying set on the initially empty (Null-rooted) Document
followed by get at the same Path returns the set value, for every Path;
vivification creates missing intermediate containers but never overwrites
an existing incompatible scalar (Boolean, Integer, Float or String) value,
failing with typeMismatch instead. -/
theorem set_vivify_then_get :
    (∀ (p : List Segment) (v : Node), ∃ r,
      setNode true Node.null p v = Except.ok r ∧ getNode r p = Except.ok v) ∧
    (∀ b seg rest v, setNode true (Node.boolean b) (seg :: rest) v =
      Except.error TreeError.typeMismatch) ∧
    (∀ i seg rest v, setNode true (Node.integer i) (seg :: rest) v =
      Except.error TreeError.typeMismatch) ∧
    (∀ q seg rest v, setNode true (Node.float q) (seg :: rest) v =
      Except.error TreeError.typeMismatch) ∧
    (∀ s seg rest v, setNode true (Node.string s) (seg :: rest) v =
      Except.error TreeError.typeMismatch) := by
  refine ⟨?_, ?_, ?_, ?_, ?_⟩
  · intro p v
    obtain ⟨r, hr⟩ := setNode_null_ok p v
    exact ⟨r, hr, setNode_get p Node.null v r hr⟩
  all_goals (intro _ seg rest _; cases seg <;> rfl)

/-- A removed key is no longer found. -/
theorem lookupKey_remove_self (fs : List (String × Node)) (k : String) :
    lookupKey (removeKey fs k) k = none := by
  induction fs with
  | nil => rfl
  | cons f rest ih =>
    obtain ⟨k2, v⟩ := f
    simp only [removeKey]
    by_cases hk : k2 = k
    · simpa [hk] using ih
    · simpa [lookupKey, hk] using ih

/-- contains is true exactly when get succeeds. -/
theorem containsNode_iff (root : Node) (p : List Segment) :
    containsNode root p = true ↔ ∃ n, getNode root p = Except.ok n := by
  unfold containsNode
  cases h : getNode root p <;> simp

/-- contains through an Object field that lookup finds. -/
theorem containsNode_obj_cons (fs : List (String × Node)) (k : String) (child : Node)
    (rest : List Segment) (hl : lookupKey fs k = some child) :
    containsNode (Node.object fs) (Segment.key k :: rest) = containsNode child rest := by
  simp [containsNode, getNode, hl]

/-- contains through an in-range Array element. -/
theorem containsNode_arr_cons (xs : List Node) (i : Nat) (rest : List Segment)
    (h : i < xs.length) :
    containsNode (Node.array xs) (Segment.index i :: rest) = containsNode xs[i] rest := by
  simp [containsNode, getNode, h]

/-- Erasing at a path whose terminal segment is an Object key succeeds when
the path exists and makes contains at that path false. -/
theorem erase_key_contains (p : List Segment) : ∀ (root : Node) (k : String),
    containsNode root (p ++ [Segment.key k]) = true →
    ∃ r, eraseNode root (p ++ [Segment.key k]) = Except.ok r ∧
      containsNode r (p ++ [Segment.key k]) = false := by
  induction p with
  | nil =>
    intro root k hc
    rw [List.nil_append] at hc ⊢
    obtain ⟨n, hn⟩ := (containsNode_iff root _).mp hc
    cases root <;> simp only [getNode] at hn
    all_goals try exact Except.noConfusion hn
    case object fs =>
      cases hl : lookupKey fs k with
      | some child =>
        refine ⟨Node.object (removeKey fs k), ?_, ?_⟩
        · simp [eraseNode, containsKey, hl]
        · simp [containsNode, getNode, lookupKey_remove_self]
      | none => rw [hl] at hn; exact Except.noConfusion hn
  | cons seg p' ih =>
    intro root k hc
    obtain ⟨s, t, hst⟩ : ∃ s t, p' ++ [Segment.key k] = s :: t := by
      cases p' <;> exact ⟨_, _, rfl⟩
    rw [List.cons_append] at hc ⊢
    obtain ⟨n, hn⟩ := (containsNode_iff root _).mp hc
    cases root <;> cases seg <;> simp only [getNode] at hn
    all_goals try exact Except.noConfusion hn
    case object.key fs k0 =>
      cases hl : lookupKey fs k0 with
      | none => rw [hl] at hn; exact Except.noConfusion hn
      | some child =>
        rw [hl] at hn
        have hcc : containsNode child (p' ++ [Segment.key k]) = true :=
          (containsNode_iff child _).mpr ⟨n, hn⟩
        obtain ⟨c, hec, hcf⟩ := ih child k hcc
        rw [hst] at hec hcf ⊢
        refine ⟨Node.object (updateKey fs k0 c), ?_, ?_⟩
        · simp [eraseNode, hl, hec]
        · rw [containsNode_obj_cons _ k0 c _ (lookupKey_update_self fs k0 child c hl)]
          exact hcf
    case array.index xs i =>
      by_cases hi : i < xs.length
      · rw [dif_pos hi] at hn
        have hcc : containsNode xs[i] (p' ++ [Segment.key k]) = true :=
          (containsNode_iff _ _).mpr ⟨n, hn⟩
        obtain ⟨c, hec, hcf⟩ := ih xs[i] k hcc
        rw [hst] at hec hcf ⊢
        refine ⟨Node.array (xs.set i c), ?_, ?_⟩
        · simp [eraseNode, dif_pos hi, hec]
        · rw [containsNode_arr_cons (xs.set i c) i (s :: t) (by simpa)]
          simp only [List.getElem_set_self]
          exact hcf
      · rw [dif_neg hi] at hn
        exact Except.noConfusion hn

/-- C8 (amended): erase at an existing Path whose terminal segment is an
Object key, followed by contains at that Path, returns false (for an Array
index terminal this fails, since index removal shifts later elements down
into the erased position); erasing an already-absent key or index fails
with keyNotFound or indexOutOfBounds rather than silently succeeding; and
erase at the empty Path resets the root to Null rather than being
rejected. -/
theorem erase_then_contains_spec :
    (∀ (root : Node) (p : List Segment) (k : String),
      containsNode root (p ++ [Segment.key k]) = true →
      ∃ r, eraseNode root (p ++ [Segment.key k]) = Except.ok r ∧
        containsNode r (p ++ [Segment.key k]) = false) ∧
    (∀ fs k, containsKey fs k = false →
      eraseNode (Node.object fs) [Segment.key k] = Except.error TreeError.keyNotFound) ∧
    (∀ (xs : List Node) i, xs.length ≤ i →
      eraseNode (Node.array xs) [Segment.index i] =
        Except.error TreeError.indexOutOfBounds) ∧
    (∀ root : Node, eraseNode root [] = Except.ok Node.null) := by
  refine ⟨fun root p k => erase_key_contains p root k, ?_, ?_, ?_⟩
  · intro fs k h
    simp [eraseNode, h]
  · intro xs i h
    simp only [eraseNode]
    rw [if_neg (by omega)]
  · intro root; cases root <;> rfl

/-- Witness for the hypotheses of erase_then_contains_spec at concrete
inputs. -/
theorem erase_then_contains_witness :
    (∃ r, eraseNode (Node.object [("a", Node.integer 1)]) ([] ++ [Segment.key "a"]) =
        Except.ok r ∧
      containsNode r ([] ++ [Segment.key "a"]) = false) ∧
    eraseNode (Node.object []) [Segment.key "a"] = Except.error TreeError.keyNotFound ∧
    eraseNode (Node.array []) [Segment.index 0] =
      Except.error TreeError.indexOutOfBounds :=
  ⟨erase_then_contains_spec.1 (Node.object [("a", Node.integer 1)]) [] "a" rfl,
   erase_then_contains_spec.2.1 [] "a" rfl,
   erase_then_contains_spec.2.2.1 [] 0 (by decide)⟩

/-- C8 counterexample: the claim as stated fails for Array index terminals.
Erasing index 0 from the two-element Array [1, 2] shifts the second element
down into position 0, so the erased Path still exists afterwards and
contains returns true, not false. -/
theorem erase_then_contains_counterexample :
    containsNode (Node.array [Node.integer 1, Node.integer 2]) [Segment.index 0] = true ∧
    eraseNode (Node.array [Node.integer 1, Node.integer 2]) [Segment.index 0] =
      Except.ok (Node.array [Node.integer 2]) ∧
    containsNode (Node.array [Node.integer 2]) [Segment.index 0] = true :=
  ⟨rfl, rfl, rfl⟩

/-- A field present in the list is matched by lookupEq, given that its
value is self-equal. -/
theorem lookupEq_of_mem (k : String) (v : Node) (ys : List (String × Node))
    (hm : (k, v) ∈ ys) (hv : nodeEq v v = true) : lookupEq k v ys = true := by
  induction ys with
  | nil => cases hm
  | cons y ys ih =>
    obtain ⟨k2, w⟩ := y
    simp only [lookupEq]
    by_cases hc : k = k2 ∧ nodeEq v w = true
    · simp [hc]
    · rw [if_neg hc]
      rcases List.mem_cons.mp hm with he | ht
      · exfalso
        apply hc
        injection he with h1 h2
        exact ⟨h1, h2 ▸ hv⟩
      · exact ih ht

/-- fieldsSub holds when every field of the first list is matched in the
second. -/
theorem fieldsSub_of_forall (xs ys : List (String × Node))
    (h : ∀ kv ∈ xs, lookupEq kv.1 kv.2 ys = true) : fieldsSub xs ys = true := by
  induction xs with
  | nil => simp [fieldsSub]
  | cons x xs ih =>
    obtain ⟨k, v⟩ := x
    simp only [fieldsSub, Bool.and_eq_true]
    exact ⟨h (k, v) (List.mem_cons_self (k, v) xs),
      ih fun kv hk => h kv (List.mem_cons_of_mem _ hk)⟩

/-- Structural Node equality is reflexive (size-bounded induction). -/
theorem nodeEq_refl_aux : ∀ (m : Nat) (n : Node), sizeOf n ≤ m → nodeEq n n = true := by
  intro m
  induction m with
  | zero =>
    intro n h
    cases n <;> simp at h
  | succ m ih =>
    intro n h
    cases n with
    | null => simp [nodeEq]
    | boolean b => simp [nodeEq]
    | integer i => simp [nodeEq]
    | float q => simp [nodeEq]
    | string s => simp [nodeEq]
    | array xs =>
      simp only [nodeEq]
      have hxs : sizeOf xs ≤ m := by simp at h; omega
      clear h
      induction xs with
      | nil => simp [arrEq]
      | cons x xs ihx =>
        simp only [arrEq, Bool.and_eq_true]
        refine ⟨ih x ?_, ?_⟩
        · simp at hxs; omega
        · apply ihx
          simp at hxs ⊢
          omega
    | object fs =>
      simp only [nodeEq, Bool.and_eq_true]
      have hfs : sizeOf fs ≤ m := by simp at h; omega
      have hv : ∀ kv ∈ fs, nodeEq kv.2 kv.2 = true := by
        intro kv hm
        obtain ⟨kk, vv⟩ := kv
        have hlt := List.sizeOf_lt_of_mem hm
        show nodeEq vv vv = true
        apply ih
        simp at hlt
        omega
      constructor <;>
        exact fieldsSub_of_forall fs fs fun kv hm =>
          lookupEq_of_mem kv.1 kv.2 fs hm (hv kv hm)

/-- Structural Node equality is reflexive. -/
theorem nodeEq_refl (n : Node) : nodeEq n n = true :=
  nodeEq_refl_aux (sizeOf n) n (Nat.le_refl _)

/-- C9: Node equality on Objects is insertion-order-independent — two
Object Nodes whose field lists are permutations of one another are equal —
while Array equality is order-sensitive, as the Arrays [1, 2] and [2, 1]
are unequal. -/
theorem object_equality_order_insensitive (xs ys : List (String × Node))
    (hp : List.Perm xs ys) :
    nodeEq (Node.object xs) (Node.object ys) = true ∧
    nodeEq (Node.array [Node.integer 1, Node.integer 2])
      (Node.array [Node.integer 2, Node.integer 1]) = false := by
  constructor
  · simp only [nodeEq, Bool.and_eq_true]
    constructor
    · exact fieldsSub_of_forall xs ys fun kv hm =>
        lookupEq_of_mem kv.1 kv.2 ys (hp.subset hm) (nodeEq_refl _)
    · exact fieldsSub_of_forall ys xs fun kv hm =>
        lookupEq_of_mem kv.1 kv.2 xs (hp.symm.subset hm) (nodeEq_refl _)
  · simp only [nodeEq, arrEq]
    decide

/-- Witness for object_equality_order_insensitive at the spec's example:
the object with a mapped to 1 and b mapped to 2, with the two insertion
orders. -/
theorem object_equality_order_insensitive_witness :
    nodeEq (Node.object [("a", Node.integer 1), ("b", Node.integer 2)])
      (Node.object [("b", Node.integer 2), ("a", Node.integer 1)]) = true :=
  (object_equality_order_insensitive
    [("a", Node.integer 1), ("b", Node.integer 2)]
    [("b", Node.integer 2), ("a", Node.integer 1)]
    (List.Perm.swap ("b", Node.integer 2) ("a", Node.integer 1) [])).1

/-- Character and value of a decimal digit are mutually inverse. -/
theorem digitVal_digitChar (d : Nat) (h : d < 10) : digitVal (digitChar d) = d := by
  interval_cases d <;> rfl

/-- The character of a decimal digit is a digit character. -/
theorem isDigitChar_digitChar (d : Nat) (h : d < 10) : isDigitChar (digitChar d) = true := by
  interval_cases d <;> rfl

/-- A digit character is none of the parser's dispatch characters. -/
theorem isDigitChar_notIn (c : Char) (h : isDigitChar c = true) :
    c ≠ 'n' ∧ c ≠ 't' ∧ c ≠ 'f' ∧ c ≠ '"' ∧ c ≠ '[' ∧ c ≠ '{' ∧ c ≠ '-' ∧
    c ≠ '.' ∧ c ≠ ',' ∧ c ≠ ']' ∧ c ≠ '}' ∧ c ≠ ':' := by
  refine ⟨?_, ?_, ?_, ?_, ?_, ?_, ?_, ?_, ?_, ?_, ?_, ?_⟩ <;>
    (rintro rfl; exact absurd h (by decide))

/-- The digit accumulator agrees with the base-10 digits of its input. -/
theorem natCharsAux_eq : ∀ (fuel n : Nat) (acc : List Char), n < fuel → 0 < n →
    natCharsAux fuel n acc = ((Nat.digits 10 n).map digitChar).reverse ++ acc := by
  intro fuel
  induction fuel with
  | zero => intro n acc h; omega
  | succ fuel ih =>
    intro n acc hn hpos
    simp only [natCharsAux]
    by_cases h10 : n < 10
    · rw [if_pos h10, Nat.digits_def' (by norm_num : (1:Nat) < 10) hpos,
        Nat.div_eq_of_lt h10, Nat.digits_zero, Nat.mod_eq_of_lt h10]
      simp
    · rw [if_neg h10, ih (n / 10) _ (by omega) (by omega),
        Nat.digits_def' (by norm_num : (1:Nat) < 10) hpos]
      simp

/-- natToChars of a positive number is its reversed digit characters. -/
theorem natToChars_pos (n : Nat) (h : 0 < n) :
    natToChars n = ((Nat.digits 10 n).map digitChar).reverse := by
  unfold natToChars
  rw [natCharsAux_eq (n + 1) n [] (by omega) h]
  simp

/-- Every character printed for a natural number is a digit. -/
theorem natToChars_digits (n : Nat) : ∀ c ∈ natToChars n, isDigitChar c = true := by
  rcases Nat.eq_zero_or_pos n with rfl | hpos
  · intro c hc
    simp only [natToChars, natCharsAux] at hc
    simp at hc
    subst hc
    rfl
  · rw [natToChars_pos n hpos]
    intro c hc
    simp only [List.mem_reverse, List.mem_map] at hc
    obtain ⟨d, hd, rfl⟩ := hc
    exact isDigitChar_digitChar d (Nat.digits_lt_base (by norm_num) hd)

/-- natToChars never produces the empty list. -/
theorem natToChars_ne_nil (n : Nat) : natToChars n ≠ [] := by
  rcases Nat.eq_zero_or_pos n with rfl | hpos
  · simp [natToChars, natCharsAux]
  · rw [natToChars_pos n hpos]
    simp [Nat.digits_ne_nil_iff_ne_zero.mpr (by omega : n ≠ 0)]

/-- Parsing back the printed digits of a natural number recovers it. -/
theorem digitsVal_natToChars (n : Nat) : digitsVal (natToChars n) = n := by
  rcases Nat.eq_zero_or_pos n with rfl | hpos
  · rfl
  · rw [natToChars_pos n hpos]
    unfold digitsVal
    rw [List.map_reverse, List.reverse_reverse, List.map_map]
    have hmap : (Nat.digits 10 n).map (digitVal ∘ digitChar) = Nat.digits 10 n := by
      conv_rhs => rw [← List.map_id (Nat.digits 10 n)]
      apply List.map_congr_left
      intro d hd
      exact digitVal_digitChar d (Nat.digits_lt_base (by norm_num) hd)
    rw [hmap]
    exact Nat.ofDigits_digits 10 n

/-- takeDigits splits a printed digit run exactly at its boundary. -/
theorem takeDigits_append (ds rest : List Char) (hd : ∀ c ∈ ds, isDigitChar c = true)
    (hr : RestOk rest) : takeDigits (ds ++ rest) = (ds, rest) := by
  induction ds with
  | nil =>
    cases rest with
    | nil => rfl
    | cons c cs =>
      obtain ⟨h1, _⟩ := hr
      simp [takeDigits, h1]
  | cons d ds ih =>
    have hdd : isDigitChar d = true := hd d (List.mem_cons_self d ds)
    simp [takeDigits, hdd, ih fun c hc => hd c (List.mem_cons_of_mem d hc)]

/-- parseNumber undoes natToChars. -/
theorem parseNumber_natToChars (n : Nat) (rest : List Char) (hr : RestOk rest) :
    parseNumber (natToChars n ++ rest) = Except.ok (Node.integer n, rest) := by
  obtain ⟨d, ds, hds⟩ := List.exists_cons_of_ne_nil (natToChars_ne_nil n)
  unfold parseNumber
  rw [takeDigits_append _ _ (natToChars_digits n) hr, hds]
  cases rest with
  | nil => simp [← hds, digitsVal_natToChars]
  | cons c r2 =>
    obtain ⟨_, h2⟩ := hr
    simp [h2, ← hds, digitsVal_natToChars]

/-- On a digit head the value parser dispatches to the number parser. -/
theorem parseVal_digit (fuel : Nat) (c : Char) (cs : List Char) (h : isDigitChar c = true) :
    parseVal (fuel + 1) (c :: cs) = parseNumber (c :: cs) := by
  obtain ⟨hn, ht, hf, hq, hlb, hob, hm, _, _, _, _, _⟩ := isDigitChar_notIn c h
  simp only [parseVal]
  rw [if_neg hn, if_neg ht, if_neg hf, if_neg hq, if_neg hlb, if_neg hob, if_neg hm, if_pos h]

/-- The value parser undoes intToChars. -/
theorem parseVal_intToChars (fuel : Nat) (i : Int) (rest : List Char) (hr : RestOk rest) :
    parseVal (fuel + 1) (intToChars i ++ rest) = Except.ok (Node.integer i, rest) := by
  by_cases hneg : i < 0
  · rw [intToChars, if_pos hneg, List.cons_append]
    simp only [parseVal]
    rw [if_neg (by decide), if_neg (by decide), if_neg (by decide), if_neg (by decide),
      if_neg (by decide), if_neg (by decide), if_pos trivial,
      parseNumber_natToChars i.natAbs rest hr]
    have hna : -(i.natAbs : Int) = i := by omega
    simp [hna]
    rw [abs_of_neg hneg, neg_neg]
  · rw [intToChars, if_neg hneg]
    obtain ⟨d, ds, hds⟩ := List.exists_cons_of_ne_nil (natToChars_ne_nil i.toNat)
    have hd : isDigitChar d = true := by
      apply natToChars_digits
      rw [hds]
      exact List.mem_cons_self d ds
    rw [hds, List.cons_append, parseVal_digit fuel d (ds ++ rest) hd, ← List.cons_append,
      ← hds, parseNumber_natToChars i.toNat rest hr]
    have hto : (i.toNat : Int) = i := by omega
    rw [hto]

/-- The string-body parser undoes the escaping printer up to the closing
quote. -/
theorem parseStringBody_escChars (s : List Char) (rest : List Char) :
    parseStringBody (escChars s ++ ('"' :: rest)) = Except.ok (s, rest) := by
  induction s with
  | nil => simp [escChars, parseStringBody]
  | cons c cs ih =>
    simp only [escChars]
    by_cases h1 : c = '"'
    · subst h1; simp [parseStringBody, ih]
    · by_cases h2 : c = '\\'
      · subst h2; simp [parseStringBody, ih]
      · by_cases h3 : c = '\n'
        · subst h3; simp [parseStringBody, ih]
        · by_cases h4 : c = '\t'
          · subst h4; simp [parseStringBody, ih]
          · by_cases h5 : c = '\r'
            · subst h5; simp [parseStringBody, ih]
            · simp [h1, h2, h3, h4, h5, parseStringBody, ih]

/-- The printed form of a Node is never empty. -/
theorem printNode_ne_nil (n : Node) : printNode n ≠ [] := by
  cases n with
  | null => simp [printNode]
  | boolean b => cases b <;> simp [printNode]
  | integer i =>
    simp only [printNode]
    rw [intToChars]
    by_cases h : i < 0
    · simp [h]
    · simp [h, natToChars_ne_nil]
  | float q =>
    simp only [printNode]
    unfold floatChars
    intro hc
    rcases List.append_eq_nil.mp hc with ⟨h1, h2⟩
    rcases List.append_eq_nil.mp h1 with ⟨_, h3⟩
    exact natToChars_ne_nil _ h3
  | string s => simp [printNode, stringChars]
  | array xs => cases xs <;> simp [printNode]
  | object fs => cases fs <;> simp [printNode]

/-- The first character of a printed Node is neither a closing bracket nor
a closing brace. -/
theorem printNode_head_not (n : Node) (c : Char) (r : List Char)
    (h : printNode n = c :: r) : c ≠ ']' ∧ c ≠ '}' := by
  have hdig : ∀ m : Nat, ∀ r2 : List Char, natToChars m = c :: r2 → c ≠ ']' ∧ c ≠ '}' := by
    intro m r2 hm
    have : isDigitChar c = true := by
      apply natToChars_digits m
      rw [hm]
      exact List.mem_cons_self c r2
    obtain ⟨_, _, _, _, _, _, _, _, _, h10, h11, _⟩ := isDigitChar_notIn c this
    exact ⟨h10, h11⟩
  cases n with
  | null =>
    simp only [printNode] at h
    injection h with h1 _
    subst h1; exact ⟨by decide, by decide⟩
  | boolean b =>
    cases b <;> simp only [printNode] at h <;> (injection h with h1 _; subst h1)
    · exact ⟨by decide, by decide⟩
    · exact ⟨by decide, by decide⟩
  | integer i =>
    simp only [printNode] at h
    rw [intToChars] at h
    by_cases hneg : i < 0
    · rw [if_pos hneg] at h
      injection h with h1 _
      subst h1; exact ⟨by decide, by decide⟩
    · rw [if_neg hneg] at h
      exact hdig _ _ h
  | float q =>
    simp only [printNode] at h
    unfold floatChars at h
    by_cases hneg : q < 0
    · rw [if_pos hneg] at h
      injection h with h1 _
      subst h1; exact ⟨by decide, by decide⟩
    · rw [if_neg hneg, List.nil_append] at h
      obtain ⟨d, ds, hds⟩ := List.exists_cons_of_ne_nil (natToChars_ne_nil (q.num.natAbs / q.den))
      rw [hds, List.cons_append] at h
      injection h with h1 _
      subst h1
      exact hdig _ _ hds
  | string s =>
    simp only [printNode, stringChars] at h
    injection h with h1 _
    subst h1; exact ⟨by decide, by decide⟩
  | array xs =>
    cases xs <;> simp only [printNode] at h <;> (injection h with h1 _; subst h1)
    · exact ⟨by decide, by decide⟩
    · exact ⟨by decide, by decide⟩
  | object fs =>
    cases fs <;> simp only [printNode] at h <;> (injection h with h1 _; subst h1)
    · exact ⟨by decide, by decide⟩
    · exact ⟨by decide, by decide⟩

/-- The parser fuel measure of a Node is positive. -/
theorem sizeN_pos (n : Node) : 1 ≤ sizeN n := by
  cases n <;> simp [sizeN]

/-- The fuel measure of a non-empty element list is positive. -/
theorem sizeItems_cons_pos (x : Node) (xs : List Node) : 1 ≤ sizeItems (x :: xs) := by
  simp [sizeItems]
  omega

/-- The fuel measure of a non-empty field list is positive. -/
theorem sizeFields_cons_pos (k : String) (v : Node) (fs : List (String × Node)) :
    1 ≤ sizeFields ((k, v) :: fs) := by
  simp [sizeFields]
  omega

/-- The remainder after an Array element starts with a comma or the closing
bracket. -/
theorem restOk_items (xs : List Node) (rest : List Char) :
    RestOk (printItems xs ++ (']' :: rest)) := by
  cases xs with
  | nil =>
    rw [printItems, List.nil_append]
    exact ⟨by decide, by decide⟩
  | cons y ys =>
    rw [printItems, List.cons_append]
    exact ⟨by decide, by decide⟩

/-- The remainder after an Object field starts with a comma or the closing
brace. -/
theorem restOk_fields (fs : List (String × Node)) (rest : List Char) :
    RestOk (printFieldsRest fs ++ ('}' :: rest)) := by
  cases fs with
  | nil =>
    rw [printFieldsRest, List.nil_append]
    exact ⟨by decide, by decide⟩
  | cons f fs =>
    rw [printFieldsRest, List.cons_append]
    exact ⟨by decide, by decide⟩

/-- The fuel measure of a Node is at most the length of its printed form
(size-bounded simultaneous induction). -/
theorem size_le_len : ∀ m : Nat,
    (∀ n : Node, sizeOf n ≤ m → sizeN n ≤ (printNode n).length) ∧
    (∀ xs : List Node, sizeOf xs ≤ m → sizeItems xs ≤ (printItems xs).length) ∧
    (∀ fs : List (String × Node), sizeOf fs ≤ m → sizeFields fs ≤ (printFieldsRest fs).length) := by
  intro m
  induction m with
  | zero =>
    refine ⟨?_, ?_, ?_⟩ <;> intro x h <;> exfalso <;> cases x <;> simp at h
  | succ m ih =>
    obtain ⟨ihn, ihl, ihf⟩ := ih
    refine ⟨?_, ?_, ?_⟩
    · intro n hsz
      cases n with
      | null => simp [sizeN, printNode]
      | boolean b => cases b <;> simp [sizeN, printNode]
      | integer i =>
        have hpos : 0 < (natToChars i.natAbs).length :=
          List.length_pos.mpr (natToChars_ne_nil _)
        have hpos2 : 0 < (natToChars i.toNat).length :=
          List.length_pos.mpr (natToChars_ne_nil _)
        simp only [sizeN, printNode]
        rw [intToChars]
        by_cases h : i < 0
        · rw [if_pos h]; simp
        · rw [if_neg h]; omega
      | float q =>
        have hpos : 0 < (natToChars (q.num.natAbs / q.den)).length :=
          List.length_pos.mpr (natToChars_ne_nil _)
        simp only [sizeN, printNode]
        unfold floatChars
        simp [List.length_append]
        omega
      | string s =>
        simp [sizeN, printNode, stringChars]
      | array xs =>
        cases xs with
        | nil => simp [sizeN, sizeItems, printNode]
        | cons x xs =>
          have h1 : sizeN x ≤ (printNode x).length := ihn x (by simp at hsz; omega)
          have h2 : sizeItems xs ≤ (printItems xs).length := ihl xs (by simp at hsz; omega)
          simp only [sizeN, sizeItems, printNode, List.length_cons, List.length_append]
          simp
          omega
      | object fs =>
        cases fs with
        | nil => simp [sizeN, sizeFields, printNode]
        | cons f fs =>
          obtain ⟨k, v⟩ := f
          have h1 : sizeN v ≤ (printNode v).length := ihn v (by simp at hsz; omega)
          have h2 : sizeFields fs ≤ (printFieldsRest fs).length := ihf fs (by simp at hsz; omega)
          simp only [sizeN, sizeFields, printNode, printField, stringChars,
            List.length_cons, List.length_append]
          omega
    · intro xs hsz
      cases xs with
      | nil => simp [sizeItems, printItems]
      | cons x xs =>
        have h1 : sizeN x ≤ (printNode x).length := ihn x (by simp at hsz; omega)
        have h2 : sizeItems xs ≤ (printItems xs).length := ihl xs (by simp at hsz; omega)
        simp only [sizeItems, printItems, List.length_cons, List.length_append]
        omega
    · intro fs hsz
      cases fs with
      | nil => simp [sizeFields, printFieldsRest]
      | cons f fs =>
        obtain ⟨k, v⟩ := f
        have h1 : sizeN v ≤ (printNode v).length := ihn v (by simp at hsz; omega)
        have h2 : sizeFields fs ≤ (printFieldsRest fs).length := ihf fs (by simp at hsz; omega)
        simp only [sizeFields, printFieldsRest, printField, stringChars,
          List.length_cons, List.length_append]
        omega

/-- The recursive-descent parser undoes the printer on float-free trees:
simultaneous fuel induction for values, Array elements and Object fields. -/
theorem parse_print_aux : ∀ fuel : Nat,
    (∀ (n : Node) (rest : List Char), noFloat n = true → sizeN n ≤ fuel → RestOk rest →
      parseVal fuel (printNode n ++ rest) = Except.ok (n, rest)) ∧
    (∀ (x : Node) (xs : List Node) (rest : List Char),
      noFloat x = true → noFloatL xs = true → sizeItems (x :: xs) ≤ fuel → RestOk rest →
      parseItems fuel (printNode x ++ (printItems xs ++ (']' :: rest))) =
        Except.ok (x :: xs, rest)) ∧
    (∀ (k : String) (v : Node) (fs : List (String × Node)) (rest : List Char),
      noFloat v = true → noFloatF fs = true → sizeFields ((k, v) :: fs) ≤ fuel →
      RestOk rest →
      parseFields fuel (printField (k, v) ++ (printFieldsRest fs ++ ('}' :: rest))) =
        Except.ok ((k, v) :: fs, rest)) := by
  intro fuel
  induction fuel with
  | zero =>
    refine ⟨?_, ?_, ?_⟩
    · intro n rest _ hsz _
      exact absurd hsz (by have := sizeN_pos n; omega)
    · intro x xs rest _ _ hsz _
      exact absurd hsz (by have := sizeItems_cons_pos x xs; omega)
    · intro k v fs rest _ _ hsz _
      exact absurd hsz (by have := sizeFields_cons_pos k v fs; omega)
  | succ fuel ih =>
    obtain ⟨ihv, ihi, ihf⟩ := ih
    refine ⟨?_, ?_, ?_⟩
    · intro n rest hnf hsz hr
      cases n with
      | null => simp [printNode, parseVal]
      | boolean b => cases b <;> simp [printNode, parseVal]
      | integer i =>
        simp only [printNode]
        exact parseVal_intToChars fuel i rest hr
      | float q => simp [noFloat] at hnf
      | string s =>
        obtain ⟨sd⟩ := s
        simp only [printNode, stringChars, List.cons_append, List.append_assoc,
          List.singleton_append]
        simp [parseVal, parseStringBody_escChars]
      | array xs =>
        cases xs with
        | nil => simp [printNode, parseVal]
        | cons x xs =>
          have hnfs : noFloat x = true ∧ noFloatL xs = true := by
            simpa [noFloat, noFloatL] using hnf
          have hsi : sizeItems (x :: xs) ≤ fuel := by
            simp [sizeN] at hsz; omega
          have hpi := ihi x xs rest hnfs.1 hnfs.2 hsi hr
          obtain ⟨c2, pr, hpx⟩ := List.exists_cons_of_ne_nil (printNode_ne_nil x)
          obtain ⟨hc2r, _⟩ := printNode_head_not x c2 pr hpx
          rw [hpx, List.cons_append] at hpi
          simp only [printNode, List.cons_append, List.append_assoc,
            List.singleton_append]
          rw [hpx]
          simp [parseVal, List.cons_append, hc2r, hpi]
      | object fs =>
        cases fs with
        | nil => simp [printNode, parseVal]
        | cons f fs =>
          obtain ⟨k, v⟩ := f
          have hnfs : noFloat v = true ∧ noFloatF fs = true := by
            simpa [noFloat, noFloatF] using hnf
          have hsf : sizeFields ((k, v) :: fs) ≤ fuel := by
            simp [sizeN] at hsz; omega
          have hpf := ihf k v fs rest hnfs.1 hnfs.2 hsf hr
          simp only [printField, stringChars, List.cons_append, List.append_assoc,
            List.singleton_append, List.nil_append] at hpf
          simp only [printNode, printField, stringChars, List.cons_append,
            List.append_assoc, List.singleton_append]
          simp [parseVal, hpf]
    · intro x xs rest hnx hnxs hsz hr
      have hsx : sizeN x ≤ fuel := by simp [sizeItems] at hsz; omega
      have hv := ihv x (printItems xs ++ (']' :: rest)) hnx hsx (restOk_items xs rest)
      simp only [parseItems]
      rw [hv]
      cases xs with
      | nil => simp [printItems]
      | cons y ys =>
        have hy : noFloat y = true ∧ noFloatL ys = true := by
          simpa [noFloatL] using hnxs
        have hsy : sizeItems (y :: ys) ≤ fuel := by
          simp [sizeItems] at hsz ⊢
          have := sizeN_pos x
          omega
        have hpi2 := ihi y ys rest hy.1 hy.2 hsy hr
        simp [printItems, List.cons_append, List.append_assoc, hpi2]
    · intro k v fs rest hnv hnfs hsz hr
      have hsv : sizeN v ≤ fuel := by simp [sizeFields] at hsz; omega
      have hvv := ihv v (printFieldsRest fs ++ ('}' :: rest)) hnv hsv (restOk_fields fs rest)
      obtain ⟨kd⟩ := k
      simp only [printField, stringChars, List.cons_append, List.append_assoc,
        List.singleton_append, List.nil_append]
      cases fs with
      | nil =>
        simp only [printFieldsRest, List.nil_append] at hvv
        simp [parseFields, parseStringBody_escChars, hvv, printFieldsRest]
      | cons f2 fs2 =>
        obtain ⟨k2, v2⟩ := f2
        have hy : noFloat v2 = true ∧ noFloatF fs2 = true := by
          simpa [noFloatF] using hnfs
        have hs2 : sizeFields ((k2, v2) :: fs2) ≤ fuel := by
          simp [sizeFields] at hsz ⊢
          have := sizeN_pos v
          omega
        have hpf2 := ihf k2 v2 fs2 rest hy.1 hy.2 hs2 hr
        simp only [printFieldsRest, printField, stringChars, List.cons_append,
          List.append_assoc, List.singleton_append, List.nil_append] at hvv hpf2
        simp [parseFields, parseStringBody_escChars, hvv, hpf2, printFieldsRest,
          printField, stringChars, List.cons_append, List.append_assoc]

/-- C5: fromText of toText is the structural identity on every float-free
Document: parsing back the printed text returns exactly the same tree, so
object key order and array order are preserved and integer values of any
magnitude (in particular the 64-bit range) round-trip exactly.  The
noFloat hypothesis is the claim's documented float precision loss
carve-out: the model prints Float payloads at fixed decimal precision,
which loses precision exactly as the spec documents. -/
theorem fromText_toText_roundtrip (d : Node) (h : noFloat d = true) :
    fromText (toText d) = Except.ok d := by
  have hsz : sizeN d ≤ (printNode d).length := (size_le_len (sizeOf d)).1 d (Nat.le_refl _)
  have hp := (parse_print_aux ((printNode d).length + 1)).1 d [] h (by omega) True.intro
  rw [List.append_nil] at hp
  unfold fromText toText
  have hl : (String.mk (printNode d)).length = (printNode d).length := rfl
  have hd2 : (String.mk (printNode d)).data = printNode d := rfl
  rw [hl, hd2, hp]

/-- Witness for the round-trip law at a concrete document containing an
object, an array, integers of both signs, null, a boolean and an escaped
string. -/
theorem fromText_toText_roundtrip_witness :
    noFloat (Node.object
      [("a", Node.array [Node.integer 12, Node.integer (-3), Node.null]),
       ("b", Node.string "x\"y"), ("c", Node.boolean true)]) = true ∧
    fromText (toText (Node.object
      [("a", Node.array [Node.integer 12, Node.integer (-3), Node.null]),
       ("b", Node.string "x\"y"), ("c", Node.boolean true)])) =
      Except.ok (Node.object
      [("a", Node.array [Node.integer 12, Node.integer (-3), Node.null]),
       ("b", Node.string "x\"y"), ("c", Node.boolean true)]) :=
  ⟨by simp [noFloat, noFloatL, noFloatF],
   fromText_toText_roundtrip _ (by simp [noFloat, noFloatL, noFloatF])⟩

end DataTree
